import Mathlib

/-!
# Verification of the missevan_analyzer dialogue/mention pipeline

Shallow embedding of the core analysis code (`src/analyzer.py`,
`src/parser.py`).  Python strings are embedded as `List Char`; Python
`str.find`, `str.split`, `str.strip` and the literal regex scans are
embedded as executable functions on `List Char`.  Fallible Python code
(exceptions) is embedded with `Option` / `Except`.
-/

namespace Missevan

/-- Whitespace test used by the embedding of Python `str.strip`
(the ASCII whitespace characters). -/
def pySpace (c : Char) : Bool :=
  c = ' ' || c = '\t' || c = '\n' || c = '\r' || c = '\x0b' || c = '\x0c'

/-- Embedding of Python `s.strip()`: drop whitespace from both ends. -/
def pyStrip (l : List Char) : List Char :=
  (l.dropWhile pySpace).rdropWhile pySpace

/-- Embedding of Python `hay.find(needle, start)`: the smallest index
`i ≥ start` at which `needle` occurs in `hay` (`none` for Python's `-1`). -/
def strFind (hay needle : List Char) (start : Nat) : Option Nat :=
  (List.range (hay.length + 1)).find?
    (fun i => decide (start ≤ i) && needle.isPrefixOf (hay.drop i))

/-- Embedding of Python `needle in hay` (substring containment). -/
def containsSub (hay needle : List Char) : Bool :=
  (strFind hay needle 0).isSome

/-- Embedding of Python `content.split(sep, 1)` under the guarantee that
`sep` occurs: the part before the first `sep` and the part after it.
(When `sep` does not occur the second component is `[]`; every use in the
code is guarded by a containment check.) -/
def splitOnce (sep : Char) : List Char → List Char × List Char
  | [] => ([], [])
  | c :: cs =>
    if c = sep then ([], cs)
    else
      let p := splitOnce sep cs
      (c :: p.1, p.2)

/-- Embedding of Python `str.split(sep)` / `re.split` on a character class:
split at every character satisfying `p`, keeping empty pieces
(`pySplit p [] = [[]]`, like Python's `"".split(sep) == [""]`). -/
def pySplit (p : Char → Bool) : List Char → List (List Char)
  | [] => [[]]
  | c :: cs =>
    if p c then [] :: pySplit p cs
    else
      match pySplit p cs with
      | [] => [[c]]
      | s :: ss => (c :: s) :: ss

/-- The sentence-terminal punctuation class `[。！？；]` of
`re.split(r'[。！？；]', ...)` in `extract_mainchar_speech`. -/
def sentencePunct (c : Char) : Bool :=
  c = '。' || c = '！' || c = '？' || c = '；'

/-- Embedding of `analyzer.extract_mainchar_speech(content, main_char)`
(src/analyzer.py, lines 33–73).  `none` embeds Python `None`.
The `try`/`except` of the source cannot fire on any input (the split is
guarded by the containment check, `roles.index` by the membership check),
so the embedding has no separate exception branch. -/
def extract_mainchar_speech (content main_char : List Char) : Option (List Char) :=
  let tag := main_char ++ ['：']
  if tag.isPrefixOf content || containsSub content tag then
    some content
  else if containsSub content ['/'] && containsSub content ['：'] then
    let rp := splitOnce '：' content
    let role_part := rp.1
    let content_part := rp.2
    let roles := (pySplit (· = '/') role_part).map pyStrip
    if main_char ∈ roles then
      let char_index := roles.indexOf main_char
      let balanced :=
        if containsSub content_part ['/'] then
          let content_parts := pySplit (· = '/') content_part
          if content_parts.length = roles.length then
            some (pyStrip (content_parts.getD char_index []))
          else none
        else none
      match balanced with
      | some r => some r
      | none =>
        match (pySplit sentencePunct content_part).find?
            (fun seg => containsSub seg main_char) with
        | some seg => some (pyStrip seg)
        | none => some (pyStrip content_part)
    else none
  else
    some content

/-- One step of the embedding of `re.finditer(re.escape(nickname), content)`
in exact-match mode: leftmost occurrences, resuming past the end of each
match (one character further for an empty match, as `finditer` does).
`fuel` bounds the recursion; `content.length + 2` always suffices because
the resume position strictly increases and the find fails once it passes
the end of `content`. -/
def occsExactAux (hay needle : List Char) : Nat → Nat → List (Nat × Nat)
  | 0, _ => []
  | fuel + 1, start =>
    match strFind hay needle start with
    | none => []
    | some pos =>
      (pos, pos + needle.length) ::
        occsExactAux hay needle fuel (pos + max needle.length 1)

/-- All matches of `re.finditer(re.escape(nickname), content)`. -/
def occsExact (hay needle : List Char) : List (Nat × Nat) :=
  occsExactAux hay needle (hay.length + 2) 0

/-- One step of the embedding of the non-exact branch: the
`content.find(nickname, start)` loop with `start = pos + 1`, collecting
every (also self-overlapping) occurrence. -/
def occsAllAux (hay needle : List Char) : Nat → Nat → List (Nat × Nat)
  | 0, _ => []
  | fuel + 1, start =>
    match strFind hay needle start with
    | none => []
    | some pos =>
      (pos, pos + needle.length) :: occsAllAux hay needle fuel (pos + 1)

/-- All occurrences found by the non-exact `find` loop. -/
def occsAll (hay needle : List Char) : List (Nat × Nat) :=
  occsAllAux hay needle (hay.length + 2) 0

/-- The character registry: insertion-ordered mapping from character name
to its list of nickname strings (a Python `dict` of lists). -/
abbrev Registry := List (List Char × List (List Char))

/-- A collected match of `count_mentions_in_content`:
`((character, nickname), (start, end))`. -/
abbrev Hit := (List Char × List Char) × Nat × Nat

/-- The `all_matches` list of `count_mentions_in_content`, in registry
iteration order then occurrence order. -/
def allMatches (content : List Char) (reg : Registry) (exact : Bool) : List Hit :=
  reg.flatMap (fun ch =>
    ch.2.flatMap (fun nickname =>
      ((if exact then occsExact else occsAll) content nickname).map
        (fun se => ((ch.1, nickname), se))))

/-- Insert a hit into a list sorted by start offset, before the first
element whose start is `≥` the inserted one, so that among equal starts
earlier-inserted hits stay first. -/
def insertHit (x : Hit) : List Hit → List Hit
  | [] => [x]
  | y :: ys => if y.2.1 < x.2.1 then y :: insertHit x ys else x :: y :: ys

/-- Embedding of the stable `all_matches.sort(key=lambda x: x[2])`. -/
def sortHits : List Hit → List Hit
  | [] => []
  | x :: xs => insertHit x (sortHits xs)

/-- The greedy non-overlap selection of `count_mentions_in_content`:
walk the sorted hits, keep a hit when `start >= last_end`
(`last_end` starts at `-1`). -/
def pickNonOverlap : Int → List Hit → List (List Char × List Char)
  | _, [] => []
  | lastEnd, h :: rest =>
    if lastEnd ≤ (h.2.1 : Int) then h.1 :: pickNonOverlap (h.2.2 : Int) rest
    else pickNonOverlap lastEnd rest

/-- The `non_overlapping` list of kept `(character, nickname)` matches. -/
def keptMentions (content : List Char) (reg : Registry) (exact : Bool) :
    List (List Char × List Char) :=
  pickNonOverlap (-1) (sortHits (allMatches content reg exact))

/-- Embedding of `analyzer.count_mentions_in_content` (src/analyzer.py,
lines 76–116), read off as the resulting count mapping: the nested
`defaultdict(int)` becomes the function that is `0` wherever no increment
happened, and each kept match increments its `(character, nickname)` cell. -/
def count_mentions_in_content (content : List Char) (reg : Registry)
    (exact : Bool) (c n : List Char) : Nat :=
  ((keptMentions content reg exact).filter (fun cn => cn = (c, n))).length

/-! ## Parser module (src/parser.py) -/

/-- Exact value of a parsed decimal timestamp, kept as the unnormalized
fraction `num / 10 ^ pow` so that concrete comparisons compute by integer
arithmetic.  (Python stores the timestamp as a `float`; the IEEE-754
rounding of a decimal literal is order-preserving on the platform's short
timestamp strings and is not modelled.) -/
structure Decimal where
  num : Int
  pow : Nat
deriving DecidableEq, Repr

/-- Numeric strict comparison of two decimals, as Python `<` on the
timestamps: cross-multiply by the (positive) powers of ten. -/
def Decimal.blt (a b : Decimal) : Bool :=
  decide (a.num * ((10 ^ b.pow : Nat) : Int) < b.num * ((10 ^ a.pow : Nat) : Int))

/-- The `Danmaku` dataclass of src/parser.py: one timed comment record.
The Python `float` timestamp is embedded as an exact `Decimal`. -/
structure Danmaku where
  timestamp : Decimal
  user_id : List Char
  color : List Char
  content : List Char
deriving DecidableEq, Repr

/-- Digit string to number, for the embedding of Python `float`. -/
def digitsToNat (l : List Char) : Nat :=
  l.foldl (fun a c => a * 10 + (c.toNat - 48)) 0

/-- Embedding of Python `float(s)` on the decimal literals that occur in
comment-stream timestamps: optional surrounding whitespace, optional sign,
digits with at most one `'.'` and at least one digit.  `none` embeds a
raised `ValueError`.  (Exponent and `inf`/`nan` forms, which cannot appear
in the platform's timestamp field, are not modelled and map to `none`.) -/
def pyFloat (s : List Char) : Option Decimal :=
  let t := pyStrip s
  let signAndRest : Bool × List Char :=
    match t with
    | '-' :: r => (true, r)
    | '+' :: r => (false, r)
    | _ => (false, t)
  let neg := signAndRest.1
  let t := signAndRest.2
  let intPart := t.takeWhile Char.isDigit
  let rest := t.drop intPart.length
  let signed : Nat → Int := fun v => if neg then -(v : Int) else (v : Int)
  match rest with
  | [] =>
    if intPart = [] then none else some ⟨signed (digitsToNat intPart), 0⟩
  | '.' :: frac =>
    if frac.all Char.isDigit && (!intPart.isEmpty || !frac.isEmpty) then
      some ⟨signed (digitsToNat intPart * 10 ^ frac.length + digitsToNat frac),
        frac.length⟩
    else none
  | _ => none

/-- One `<d>` element of the comment XML, restricted to the two pieces the
parser reads: the `p` attribute (`''` when missing, as `get('p', '')`) and
the element text (`none` embeds Python `None`). -/
structure DElem where
  p : List Char
  text : Option (List Char)
deriving DecidableEq, Repr

/-- The outcome of `ET.fromstring` on an input string, abstracting the XML
grammar: a falsy (empty) input, a string on which `ET.fromstring` raises
`ParseError`, or a well-formed document whose direct `<d>` children are
listed in order. -/
inductive XmlInput where
  | empty
  | malformed
  | parsed (ds : List DElem)
deriving DecidableEq, Repr

/-- The exceptions that can escape the embedded code. -/
inductive PyError where
  | valueError
deriving DecidableEq, Repr

/-- Decidable equality for `Except` results, so concrete runs of the
embedded fallible code can be checked by `decide`. -/
instance {ε α : Type} [DecidableEq ε] [DecidableEq α] :
    DecidableEq (Except ε α) := fun a b =>
  match a, b with
  | .ok x, .ok y =>
    if h : x = y then .isTrue (by rw [h]) else .isFalse (by simp [h])
  | .error e, .error f =>
    if h : e = f then .isTrue (by rw [h]) else .isFalse (by simp [h])
  | .ok _, .error _ => .isFalse (by simp)
  | .error _, .ok _ => .isFalse (by simp)

/-- The record loop of `parse_danmaku_xml`: entries whose `p` attribute
splits into fewer than 7 fields are dropped; on a 7-field entry
`float(p_attributes[0])` may raise `ValueError`, which is *not* caught by
the surrounding `except ET.ParseError` and escapes. -/
def parseRecords : List DElem → Except PyError (List Danmaku)
  | [] => .ok []
  | d :: rest =>
    let attrs := pySplit (· = ',') d.p
    let content := d.text.getD []
    if 7 ≤ attrs.length then
      match pyFloat (attrs.getD 0 []) with
      | none => .error .valueError
      | some ts =>
        (parseRecords rest).map
          (fun l => ⟨ts, attrs.getD 6 [], attrs.getD 3 [], pyStrip content⟩ :: l)
    else parseRecords rest

/-- Embedding of `parser.parse_danmaku_xml` (src/parser.py, lines 24–45):
falsy input returns `[]`; `ET.ParseError` is caught and returns the list
built so far (nothing, as the error is raised before any `<d>` is seen);
per-record `ValueError` escapes. -/
def parse_danmaku_xml : XmlInput → Except PyError (List Danmaku)
  | .empty => .ok []
  | .malformed => .ok []
  | .parsed ds => parseRecords ds

/-- Embedding of the regex test `re.compile(r"^([^\x00-\xff]+)：").match`:
the text has a non-empty prefix of characters outside `\x00`–`\xff`
followed by the full-width colon. -/
def isDialogueForm (s : List Char) : Bool :=
  (List.range s.length).any (fun j =>
    decide (0 < j) && (s.getD j ' ' = '：') &&
      (List.range j).all (fun i => decide (255 < (s.getD i ' ').toNat)))

/-- The number of dialogue-form comments a given author contributed:
the per-author counter dict of `identify_staff`. -/
def dialogueCount (l : List Danmaku) (uid : List Char) : Nat :=
  (l.filter (fun d => d.user_id = uid && isDialogueForm d.content)).length

/-- Embedding of `parser.identify_staff` (src/parser.py, lines 49–61).
The returned Python set is embedded as the duplicate-free list of authors
of dialogue-form comments whose count strictly exceeds the threshold; the
`character_names` parameter is accepted and, as in the source, never
used. -/
def identify_staff (l : List Danmaku) (character_names : List (List Char))
    (threshold : Nat := 5) : List (List Char) :=
  let matching := l.filter (fun d => isDialogueForm d.content)
  ((matching.map (·.user_id)).dedup).filter (fun u => threshold < dialogueCount l u)

/-! ## Analyzer orchestration (src/analyzer.py) -/

/-- Insert a record into a list sorted by timestamp, before the first
element with a timestamp not numerically below it, so the sort below is
stable like Python `list.sort`. -/
def insertByTime (x : Danmaku) : List Danmaku → List Danmaku
  | [] => [x]
  | y :: ys =>
    if Decimal.blt y.timestamp x.timestamp then y :: insertByTime x ys
    else x :: y :: ys

/-- Embedding of the stable `dialogues.sort(key=lambda d: d.timestamp)`. -/
def sortByTime : List Danmaku → List Danmaku
  | [] => []
  | x :: xs => insertByTime x (sortByTime xs)

/-- Embedding of `analyzer.get_dialogues_by_ids` (src/analyzer.py,
lines 11–14): keep the comments of the given authors, sorted by
timestamp ascending. -/
def get_dialogues_by_ids (danmaku_list : List Danmaku)
    (user_ids : List (List Char)) : List Danmaku :=
  sortByTime (danmaku_list.filter (fun d => d.user_id ∈ user_ids))

/-- The phase-1 color set of `_get_lines_for_character`: the colors of the
candidates whose text starts with `"<character>："`.  The Python set is
embedded as the collection-ordered list; only membership and emptiness are
consumed. -/
def charColors (all_dialogues : List Danmaku) (character_name : List Char) :
    List (List Char) :=
  (all_dialogues.filter
    (fun d => (character_name ++ ['：']).isPrefixOf d.content)).map (·.color)

/-- Embedding of `analyzer._get_lines_for_character` (src/analyzer.py,
lines 17–30): when some name-prefixed line exists, return every candidate
whose color was seen on a name-prefixed line; otherwise return only the
name-prefixed candidates. -/
def get_lines_for_character (all_dialogues : List Danmaku)
    (character_name : List Char) : List Danmaku :=
  if charColors all_dialogues character_name ≠ [] then
    all_dialogues.filter
      (fun d => d.color ∈ charColors all_dialogues character_name)
  else
    all_dialogues.filter
      (fun d => (character_name ++ ['：']).isPrefixOf d.content)

/-- Count mapping character → nickname → count: the nested
`defaultdict(int)` as the function that is `0` wherever untouched. -/
abbrev CountsF := List Char → List Char → Nat

/-- Evidence mapping character → nickname → recorded comment lines. -/
abbrev DetailF := List Char → List Char → List Danmaku

/-- The mutable state of the per-line loop of
`analyze_character_mentions`: the episode tallies `episode_counts`, the
running `total_mention_counts` and the episode evidence
`episode_detailed_mentions`. -/
structure LineAcc where
  ep : CountsF
  tot : CountsF
  det : DetailF

/-- The per-line loop of `analyze_character_mentions` (src/analyzer.py,
lines 160–177): extract the main character's actual speech, skip the line
when it is `None`, otherwise add the line's mention counts to both the
episode and the total tallies and append the line to the evidence once per
counted occurrence. -/
def processLines (main_character : List Char) (reg : Registry) (exact : Bool) :
    List Danmaku → LineAcc → LineAcc
  | [], acc => acc
  | line :: rest, acc =>
    match extract_mainchar_speech line.content main_character with
    | none => processLines main_character reg exact rest acc
    | some actual =>
      let lc := count_mentions_in_content actual reg exact
      processLines main_character reg exact rest
        { ep := fun c n => acc.ep c n + lc c n
          tot := fun c n => acc.tot c n + lc c n
          det := fun c n => acc.det c n ++ List.replicate (lc c n) line }

/-- One entry of `per_episode_results`. -/
structure EpisodeResult where
  name : List Char
  id : List Char
  main_char_lines : Nat
  mentions : CountsF
  detailed_mentions : DetailF

/-- One episode descriptor `{'name': ..., 'id': ...}` of the input list. -/
structure Episode where
  name : List Char
  id : List Char

/-- The aggregation state threaded through the episode loop:
`total_mention_counts` and `per_episode_results`. -/
structure AggState where
  total : CountsF
  results : List EpisodeResult

/-- Initial aggregation state: zero tallies, no episode results. -/
def initAgg : AggState := ⟨fun _ _ => 0, []⟩

/-- The post-parse body of one episode iteration of
`analyzer.analyze_character_mentions` (src/analyzer.py, lines 149–190):
identify staff (an empty staff set skips the episode, leaving the state
unchanged), filter to staff comments sorted by time, attribute the main
character's lines, run the per-line loop and record the episode result.
`st.total` is threaded through the per-line loop exactly as the mutable
`total_mention_counts`. -/
def runEpisode (main_character : List Char) (reg : Registry) (exact : Bool)
    (ep : Episode) (danmaku_list : List Danmaku) (st : AggState) : AggState :=
  let all_character_names := reg.map (·.1) ++ [main_character]
  let staff_ids := identify_staff danmaku_list all_character_names
  if staff_ids = [] then st
  else
    let all_dialogues := get_dialogues_by_ids danmaku_list staff_ids
    let main_char_lines := get_lines_for_character all_dialogues main_character
    let acc := processLines main_character reg exact main_char_lines
      ⟨fun _ _ => 0, st.total, fun _ _ => []⟩
    ⟨acc.tot,
      st.results ++ [⟨ep.name, ep.id, main_char_lines.length, acc.ep, acc.det⟩]⟩

/-- One iteration of the episode loop (src/analyzer.py, lines 134–148 and
`runEpisode`): fetch the raw comment stream (`none` embeds a falsy
`fetch_danmaku_xml` result → episode skipped), parse it (a record-level
`ValueError` escapes) and run the episode body.  Progress notifications
and the inter-episode pacing delay are I/O and are not modelled. -/
def analyzeStep (fetch : List Char → Option XmlInput) (main_character : List Char)
    (reg : Registry) (exact : Bool) (ep : Episode) (st : AggState) :
    Except PyError AggState :=
  match fetch ep.id with
  | none => .ok st
  | some xml =>
    match parse_danmaku_xml xml with
    | .error e => .error e
    | .ok danmaku_list => .ok (runEpisode main_character reg exact ep danmaku_list st)

/-- The episode loop: process episodes in input order, threading the
aggregation state; an escaping exception aborts the loop. -/
def analyzeLoop (fetch : List Char → Option XmlInput) (main_character : List Char)
    (reg : Registry) (exact : Bool) :
    List Episode → AggState → Except PyError AggState
  | [], st => .ok st
  | ep :: rest, st =>
    match analyzeStep fetch main_character reg exact ep st with
    | .error e => .error e
    | .ok st' => analyzeLoop fetch main_character reg exact rest st'

/-- Embedding of `analyzer.analyze_character_mentions` (src/analyzer.py,
lines 119–201).  The external retrieval collaborator
`fetch_danmaku_xml` is passed as the `fetch` argument; the returned
dictionary is the final `AggState`. -/
def analyze_character_mentions (fetch : List Char → Option XmlInput)
    (episodes : List Episode) (main_character : List Char) (reg : Registry)
    (exact : Bool) : Except PyError AggState :=
  analyzeLoop fetch main_character reg exact episodes initAgg

/-! ## Concrete fixtures for witness runs -/

/-- A 7-field `p` attribute `"1,0,0,c,0,0,u"`: timestamp 1, color `c`,
author `u`. -/
def wP : List Char := ['1', ',', '0', ',', '0', ',', 'c', ',', '0', ',', '0', ',', 'u']

/-- A concrete well-formed episode stream: six dialogue-form lines
`"甲：乙好"` by author `u` — one more than the staff threshold. -/
def wStream : List DElem :=
  List.replicate 6 ⟨wP, some ('甲' :: '：' :: '乙' :: ['好'])⟩

/-- A retrieval stub that always yields the concrete stream. -/
def wFetch : List Char → Option XmlInput := fun _ => some (.parsed wStream)

/-- A retrieval stub failing exactly on episode id `0`. -/
def wFetchSkip : List Char → Option XmlInput :=
  fun i => if i = ['0'] then none else some (.parsed wStream)

/-- A one-character registry: character `乙` with nickname `乙`. -/
def wReg : Registry := [(['乙'], [['乙']])]

/-- A concrete episode descriptor. -/
def wEpisode : Episode := ⟨['e'], ['1']⟩

/-- An episode whose retrieval fails under `wFetchSkip`. -/
def wEpisodeBad : Episode := ⟨['b'], ['0']⟩

/-- The content string `"甲/乙：你好/再见"` of the balanced-split example. -/
def c1content : List Char := ['甲', '/', '乙', '：', '你', '好', '/', '再', '见']

/-- A two-comment list: one dialogue-form comment by author `u`, one plain
comment by author `v`. -/
def wStaffList : List Danmaku :=
  [⟨⟨1, 0⟩, ['u'], ['c'], '甲' :: '：' :: ['好']⟩,
   ⟨⟨2, 0⟩, ['v'], ['c'], ['h', 'i']⟩]

/-- A single name-prefixed candidate line. -/
def wLine : Danmaku := ⟨⟨1, 0⟩, ['u'], ['c'], '甲' :: '：' :: ['x']⟩

/-- The final state of a concrete two-episode run (used by the fold
invariant witness). -/
def wState : AggState :=
  match analyze_character_mentions wFetch [wEpisode, wEpisode] ['甲'] wReg false with
  | .ok st => st
  | .error _ => initAgg

end Missevan

namespace Missevan

/-! ## Claim theorems -/

/-- C1 counterexample: on content `"甲/乙：你好/再见"` with requested
character `"乙"`, `extract_mainchar_speech` does *not* return `"再见"`:
the substring `"乙："` occurs in the content, so the first branch fires
and returns the content unchanged, before any balanced split is tried. -/
theorem extract_speech_balanced_example_refuted :
    extract_mainchar_speech c1content ['乙'] ≠ some ['再', '见'] := by
  decide

/-- C1 amended: on `"甲/乙：你好/再见"`, requesting `"乙"` returns the
whole content unchanged (the `"<character>："` substring rule takes
precedence, as `"乙："` occurs at the colon), while the balanced split
applies to a requested character for which the substring rule does not
fire: requesting `"甲"` returns the piece at its index, `"你好"`. -/
theorem extract_speech_balanced_example_amended :
    extract_mainchar_speech c1content ['乙'] = some c1content ∧
    extract_mainchar_speech c1content ['甲'] = some ['你', '好'] := by
  decide

/-- C2 counterexample: the two matching modes are not behaviorally
identical.  On text `"caaa"` with registry `{A: ["aa"], B: ["ca"]}`,
exact mode gives `A`'s `"aa"` count `0` while non-exact mode gives `1`:
the non-exact scan also collects the self-overlapping occurrence of
`"aa"` at offset 2, which survives the greedy overlap filter. -/
theorem mention_modes_differ :
    count_mentions_in_content ['c', 'a', 'a', 'a']
      [(['A'], [['a', 'a']]), (['B'], [['c', 'a']])] true ['A'] ['a', 'a'] = 0 ∧
    count_mentions_in_content ['c', 'a', 'a', 'a']
      [(['A'], [['a', 'a']]), (['B'], [['c', 'a']])] false ['A'] ['a', 'a'] = 1 := by
  decide

/-- C3: the code contradicts the record-level-recovery contract: a
well-formed stream whose single `<d>` entry has the non-numeric timestamp
field `"x"` (with 7 comma-separated fields) makes `parse_danmaku_xml`
raise `ValueError` — only `ET.ParseError` is caught — instead of dropping
the malformed entry. -/
theorem parse_value_error_escapes :
    parse_danmaku_xml
      (.parsed [⟨['x', ',', '1', ',', '2', ',', 'r', ',', '4', ',', '5', ',', 'u'],
        some ['h', 'i']⟩]) = .error .valueError := by
  decide

/-- C6: overlap tie-break.  With nicknames `"小明"` (character A) and
`"明"` (character B) both matching inside `"小明来了"`, the
earlier-starting `"小明"` wins, the shadowed `"明"` is dropped, and the
counts are exactly one for A's `"小明"` and zero for B's `"明"`, in both
matching modes. -/
theorem overlap_tie_break_example :
    ∀ m : Bool,
      count_mentions_in_content ('小' :: '明' :: '来' :: ['了'])
        [(['A'], [['小', '明']]), (['B'], [['明']])] m ['A'] ['小', '明'] = 1 ∧
      count_mentions_in_content ('小' :: '明' :: '来' :: ['了'])
        [(['A'], [['小', '明']]), (['B'], [['明']])] m ['B'] ['明'] = 0 := by
  decide

/-- On a single-character nickname the exact scan's resume position
(`pos + max len 1`) coincides with the non-exact scan's (`pos + 1`), so
the two occurrence collectors agree step by step. -/
theorem occsAux_eq_of_len1 (hay n : List Char) (hn : n.length = 1) :
    ∀ fuel start, occsExactAux hay n fuel start = occsAllAux hay n fuel start := by
  intro fuel
  induction fuel with
  | zero => intro start; rfl
  | succ f ih =>
    intro start
    cases h : strFind hay n start with
    | none => simp [occsExactAux, occsAllAux, h]
    | some pos => simp [occsExactAux, occsAllAux, h, hn, ih]

/-- The two occurrence collectors agree on single-character nicknames. -/
theorem occs_eq_of_len1 (hay n : List Char) (hn : n.length = 1) :
    occsExact hay n = occsAll hay n :=
  occsAux_eq_of_len1 hay n hn _ _

/-- The per-character hit lists of the two modes agree when every nickname
of the character is a single character. -/
theorem nickMatches_modes_eq (content c : List Char) :
    ∀ nicks : List (List Char), (∀ n ∈ nicks, n.length = 1) →
      nicks.flatMap (fun n => (occsExact content n).map (fun se => ((c, n), se))) =
      nicks.flatMap (fun n => (occsAll content n).map (fun se => ((c, n), se))) := by
  intro nicks
  induction nicks with
  | nil => intro _; rfl
  | cons n ns ih =>
    intro h
    simp only [List.flatMap_cons]
    rw [occs_eq_of_len1 content n (h n (List.mem_cons_self n ns)),
      ih (fun m hm => h m (List.mem_cons_of_mem _ hm))]

/-- The collected `all_matches` lists of the two modes agree when every
nickname in the registry is a single character. -/
theorem allMatches_modes_eq_of_len1 (content : List Char) :
    ∀ reg : Registry, (∀ p ∈ reg, ∀ n ∈ p.2, n.length = 1) →
      allMatches content reg true = allMatches content reg false := by
  intro reg
  induction reg with
  | nil => intro _; rfl
  | cons p rest ih =>
    intro h
    show (p.2.flatMap (fun n =>
        (occsExact content n).map (fun se => ((p.1, n), se)))) ++
          allMatches content rest true =
      (p.2.flatMap (fun n =>
        (occsAll content n).map (fun se => ((p.1, n), se)))) ++
          allMatches content rest false
    rw [nickMatches_modes_eq content p.1 p.2 (h p (List.mem_cons_self p rest)),
      ih (fun q hq => h q (List.mem_cons_of_mem _ hq))]

/-- C2 amended: the two modes can differ when a nickname overlaps itself
in the text (see `mention_modes_differ`); they return the same
per-character per-nickname counts whenever every nickname in the registry
is a single character, so that no nickname can overlap itself and the two
scans collect the same occurrences. -/
theorem mention_modes_agree_on_single_char_nicknames
    (content : List Char) (reg : Registry)
    (h : ∀ p ∈ reg, ∀ n ∈ p.2, n.length = 1) (c n : List Char) :
    count_mentions_in_content content reg true c n =
      count_mentions_in_content content reg false c n := by
  unfold count_mentions_in_content keptMentions
  rw [allMatches_modes_eq_of_len1 content reg h]

/-- Witness for the amended C2 theorem at a concrete single-character
registry and text. -/
theorem mention_modes_agree_witness :
    count_mentions_in_content ['a', 'b', 'a'] [(['A'], [['a']])] true ['A'] ['a'] =
      count_mentions_in_content ['a', 'b', 'a'] [(['A'], [['a']])] false ['A'] ['a'] :=
  mention_modes_agree_on_single_char_nicknames ['a', 'b', 'a']
    [(['A'], [['a']])] (by decide) ['A'] ['a']

/-- C5: the staff-identification threshold is strict: an author with at
most `t` dialogue-form comments is never classified staff, and an author
with exactly `t + 1` dialogue-form comments in the list always is. -/
theorem identify_staff_strict_threshold
    (l : List Danmaku) (names : List (List Char)) (t : Nat) (a : List Char) :
    (dialogueCount l a ≤ t → a ∉ identify_staff l names t) ∧
    (dialogueCount l a = t + 1 → a ∈ identify_staff l names t) := by
  constructor
  · intro hle hmem
    unfold identify_staff at hmem
    simp only [List.mem_filter, decide_eq_true_eq] at hmem
    omega
  · intro heq
    unfold identify_staff
    simp only [List.mem_filter, List.mem_dedup, List.mem_map,
      decide_eq_true_eq]
    refine ⟨?_, by omega⟩
    have hpos : 0 < dialogueCount l a := by omega
    unfold dialogueCount at hpos
    rw [List.length_pos] at hpos
    obtain ⟨d, hd⟩ := List.exists_mem_of_ne_nil _ hpos
    rw [List.mem_filter] at hd
    have h1 := hd.2
    simp only [Bool.and_eq_true, decide_eq_true_eq] at h1
    exact ⟨d, ⟨hd.1, h1.2⟩, h1.1⟩

/-- Witness for the strict-threshold theorem: with threshold 0, the author
of one dialogue-form comment is staff and the author of one non-dialogue
comment is not. -/
theorem identify_staff_strict_threshold_witness :
    ['u'] ∈ identify_staff wStaffList [] 0 ∧
    ['v'] ∉ identify_staff wStaffList [] 0 :=
  ⟨(identify_staff_strict_threshold wStaffList [] 0 ['u']).2 (by decide),
   (identify_staff_strict_threshold wStaffList [] 0 ['v']).1 (by decide)⟩

/-- C7: speaker attribution is monotonic in color coverage: when phase 1
collects a non-empty color set, every name-prefixed candidate is among the
lines returned by `_get_lines_for_character` (the color filter recovers at
least the name-prefixed lines). -/
theorem lines_for_character_superset_of_prefixed
    (l : List Danmaku) (name : List Char) (h : charColors l name ≠ []) :
    ∀ d ∈ l.filter (fun d => (name ++ ['：']).isPrefixOf d.content),
      d ∈ get_lines_for_character l name := by
  intro d hd
  unfold get_lines_for_character
  rw [if_pos h]
  rw [List.mem_filter] at hd ⊢
  refine ⟨hd.1, ?_⟩
  simp only [decide_eq_true_eq]
  unfold charColors
  exact List.mem_map.mpr ⟨d, List.mem_filter.mpr hd, rfl⟩

/-- Witness for the color-coverage theorem at a one-line candidate pool. -/
theorem lines_for_character_superset_witness :
    wLine ∈ get_lines_for_character [wLine] ['甲'] :=
  lines_for_character_superset_of_prefixed [wLine] ['甲'] (by decide) wLine
    (by decide)

/-- In the per-line loop the episode tallies and the running totals are
incremented identically, so the two results differ by the two initial
values. -/
theorem processLines_tot_ep (mc : List Char) (reg : Registry) (ex : Bool) :
    ∀ (lines : List Danmaku) (acc : LineAcc) (c n : List Char),
      (processLines mc reg ex lines acc).tot c n + acc.ep c n =
        (processLines mc reg ex lines acc).ep c n + acc.tot c n := by
  intro lines
  induction lines with
  | nil => intro acc c n; exact Nat.add_comm _ _
  | cons line rest ih =>
    intro acc c n
    cases h : extract_mainchar_speech line.content mc with
    | none =>
      simp only [processLines, h]
      exact ih acc c n
    | some actual =>
      simp only [processLines, h]
      have h2 :
          (processLines mc reg ex rest
              ⟨fun c n => acc.ep c n + count_mentions_in_content actual reg ex c n,
               fun c n => acc.tot c n + count_mentions_in_content actual reg ex c n,
               fun c n => acc.det c n ++
                 List.replicate (count_mentions_in_content actual reg ex c n) line⟩).tot c n +
            (acc.ep c n + count_mentions_in_content actual reg ex c n) =
          (processLines mc reg ex rest
              ⟨fun c n => acc.ep c n + count_mentions_in_content actual reg ex c n,
               fun c n => acc.tot c n + count_mentions_in_content actual reg ex c n,
               fun c n => acc.det c n ++
                 List.replicate (count_mentions_in_content actual reg ex c n) line⟩).ep c n +
            (acc.tot c n + count_mentions_in_content actual reg ex c n) :=
        ih _ c n
      omega

/-- One episode body preserves the fold invariant: either the state is
unchanged (skip) or the new total is the old total plus the newly recorded
episode's mentions. -/
theorem runEpisode_preserves_invariant (mc : List Char) (reg : Registry)
    (ex : Bool) (ep : Episode) (danmaku_list : List Danmaku) (st : AggState)
    (c n : List Char)
    (hbase : st.total c n = (st.results.map (fun r => r.mentions c n)).sum) :
    (runEpisode mc reg ex ep danmaku_list st).total c n =
      ((runEpisode mc reg ex ep danmaku_list st).results.map
        (fun r => r.mentions c n)).sum := by
  simp only [runEpisode]
  split
  · exact hbase
  · have hp :
        (processLines mc reg ex
            (get_lines_for_character (get_dialogues_by_ids danmaku_list
              (identify_staff danmaku_list (reg.map (·.1) ++ [mc]))) mc)
            ⟨fun _ _ => 0, st.total, fun _ _ => []⟩).tot c n + 0 =
        (processLines mc reg ex
            (get_lines_for_character (get_dialogues_by_ids danmaku_list
              (identify_staff danmaku_list (reg.map (·.1) ++ [mc]))) mc)
            ⟨fun _ _ => 0, st.total, fun _ _ => []⟩).ep c n + st.total c n :=
      processLines_tot_ep mc reg ex _ _ c n
    simp only [List.map_append, List.sum_append, List.map_cons, List.sum_cons,
      List.map_nil, List.sum_nil]
    omega

/-- One aggregator iteration preserves the fold invariant. -/
theorem analyzeStep_preserves_invariant (fetch : List Char → Option XmlInput)
    (mc : List Char) (reg : Registry) (ex : Bool) (ep : Episode)
    (st st' : AggState) (hstep : analyzeStep fetch mc reg ex ep st = .ok st')
    (c n : List Char)
    (hbase : st.total c n = (st.results.map (fun r => r.mentions c n)).sum) :
    st'.total c n = (st'.results.map (fun r => r.mentions c n)).sum := by
  unfold analyzeStep at hstep
  split at hstep
  · cases hstep; exact hbase
  · split at hstep
    · cases hstep
    · cases hstep
      exact runEpisode_preserves_invariant mc reg ex ep _ st c n hbase

/-- The episode loop preserves the fold invariant from any starting
state. -/
theorem analyzeLoop_invariant (fetch : List Char → Option XmlInput)
    (mc : List Char) (reg : Registry) (ex : Bool) :
    ∀ (eps : List Episode) (st st' : AggState),
      analyzeLoop fetch mc reg ex eps st = .ok st' →
      ∀ c n : List Char,
        st.total c n = (st.results.map (fun r => r.mentions c n)).sum →
        st'.total c n = (st'.results.map (fun r => r.mentions c n)).sum := by
  intro eps
  induction eps with
  | nil =>
    intro st st' h c n hbase
    cases h
    exact hbase
  | cons e rest ih =>
    intro st st' h c n hbase
    unfold analyzeLoop at h
    split at h
    · cases h
    · rename_i st1 hstep
      exact ih st1 st' h c n
        (analyzeStep_preserves_invariant fetch mc reg ex e st st1 hstep c n hbase)

/-- C4: aggregation fold invariant: after any completed run of the episode
aggregator, for every character `c` and nickname `n` the accumulated
`total_mentions c n` equals the sum over all recorded per-episode results
of that episode's `mentions c n`. -/
theorem total_mentions_fold_invariant (fetch : List Char → Option XmlInput)
    (episodes : List Episode) (mc : List Char) (reg : Registry) (ex : Bool)
    (st' : AggState)
    (h : analyze_character_mentions fetch episodes mc reg ex = .ok st')
    (c n : List Char) :
    st'.total c n = (st'.results.map (fun r => r.mentions c n)).sum :=
  analyzeLoop_invariant fetch mc reg ex episodes initAgg st' h c n rfl

/-- Witness for the fold invariant on a completed concrete two-episode
run with nonzero counts. -/
theorem total_mentions_fold_witness :
    wState.total ['乙'] ['乙'] =
      (wState.results.map (fun r => r.mentions ['乙'] ['乙'])).sum :=
  total_mentions_fold_invariant wFetch [wEpisode, wEpisode] ['甲'] wReg false
    wState rfl ['乙'] ['乙']

/-- A retrieval failure leaves the aggregation state unchanged. -/
theorem analyzeStep_skip (fetch : List Char → Option XmlInput) (mc : List Char)
    (reg : Registry) (ex : Bool) (ep : Episode) (st : AggState)
    (h : fetch ep.id = none) :
    analyzeStep fetch mc reg ex ep st = .ok st := by
  unfold analyzeStep
  rw [h]

/-- Unfolding equation for one loop iteration. -/
theorem analyzeLoop_cons (fetch : List Char → Option XmlInput) (mc : List Char)
    (reg : Registry) (ex : Bool) (e : Episode) (rest : List Episode)
    (st : AggState) :
    analyzeLoop fetch mc reg ex (e :: rest) st =
      (match analyzeStep fetch mc reg ex e st with
       | .error er => .error er
       | .ok st1 => analyzeLoop fetch mc reg ex rest st1) := rfl

/-- Dropping an episode with failed retrieval anywhere in the episode list
does not change the loop's outcome, from any starting state. -/
theorem analyzeLoop_skip_middle (fetch : List Char → Option XmlInput)
    (mc : List Char) (reg : Registry) (ex : Bool) (ep : Episode)
    (h : fetch ep.id = none) :
    ∀ (pre post : List Episode) (st : AggState),
      analyzeLoop fetch mc reg ex (pre ++ ep :: post) st =
        analyzeLoop fetch mc reg ex (pre ++ post) st := by
  intro pre
  induction pre with
  | nil =>
    intro post st
    show analyzeLoop fetch mc reg ex (ep :: post) st =
      analyzeLoop fetch mc reg ex post st
    rw [analyzeLoop_cons, analyzeStep_skip fetch mc reg ex ep st h]
  | cons e pre ih =>
    intro post st
    show analyzeLoop fetch mc reg ex (e :: (pre ++ ep :: post)) st =
      analyzeLoop fetch mc reg ex (e :: (pre ++ post)) st
    rw [analyzeLoop_cons, analyzeLoop_cons]
    cases analyzeStep fetch mc reg ex e st with
    | error er => rfl
    | ok st1 => exact ih post st1

/-- C8: skipped-episode tolerance: a run containing an episode whose
retrieval returns absent is identical to the run with that episode
removed — the skipped episode contributes no result record and no counts,
every subsequent episode is processed exactly as it otherwise would be,
and the run is never aborted by the retrieval failure. -/
theorem skipped_episode_no_effect (fetch : List Char → Option XmlInput)
    (mc : List Char) (reg : Registry) (ex : Bool) (pre post : List Episode)
    (ep : Episode) (h : fetch ep.id = none) :
    analyze_character_mentions fetch (pre ++ ep :: post) mc reg ex =
      analyze_character_mentions fetch (pre ++ post) mc reg ex :=
  analyzeLoop_skip_middle fetch mc reg ex ep h pre post initAgg

/-- Witness for skipped-episode tolerance: a concrete two-episode run
whose first episode's retrieval fails equals the one-episode run without
it. -/
theorem skipped_episode_no_effect_witness :
    analyze_character_mentions wFetchSkip ([] ++ wEpisodeBad :: [wEpisode])
        ['甲'] wReg false =
      analyze_character_mentions wFetchSkip ([] ++ [wEpisode]) ['甲'] wReg false :=
  skipped_episode_no_effect wFetchSkip ['甲'] wReg false [] [wEpisode]
    wEpisodeBad rfl

/-- The part after the first separator is a suffix of the input. -/
theorem splitOnce_snd_suffix (sep : Char) :
    ∀ l : List Char, (splitOnce sep l).2 <:+ l := by
  intro l
  induction l with
  | nil => exact List.nil_suffix
  | cons c cs ih =>
    simp only [splitOnce]
    split
    · exact List.suffix_cons c cs
    · exact ih.trans (List.suffix_cons c cs)

/-- `pySplit` always returns a nonempty list whose head is a prefix of the
input. -/
theorem pySplit_head (p : Char → Bool) :
    ∀ l : List Char, ∃ s ss, pySplit p l = s :: ss ∧ s <+: l := by
  intro l
  induction l with
  | nil => exact ⟨[], [], rfl, List.nil_prefix⟩
  | cons c cs ih =>
    obtain ⟨s, ss, heq, hp⟩ := ih
    cases hc : p c with
    | true =>
      refine ⟨[], pySplit p cs, ?_, List.nil_prefix⟩
      simp [pySplit, hc]
    | false =>
      refine ⟨c :: s, ss, ?_, ?_⟩
      · simp [pySplit, hc, heq]
      · exact List.cons_prefix_cons.mpr ⟨rfl, hp⟩

/-- Every piece produced by `pySplit` is a contiguous substring of the
input. -/
theorem pySplit_mem_within (p : Char → Bool) :
    ∀ (l x : List Char), x ∈ pySplit p l → x <:+: l := by
  intro l
  induction l with
  | nil =>
    intro x hx
    simp only [pySplit, List.mem_singleton] at hx
    subst hx
    exact List.nil_infix
  | cons c cs ih =>
    intro x hx
    cases hc : p c with
    | true =>
      simp only [pySplit, hc, if_true] at hx
      rcases List.mem_cons.mp hx with h1 | h2
      · subst h1; exact List.nil_infix
      · exact List.infix_cons (ih x h2)
    | false =>
      obtain ⟨s, ss, heq, hp⟩ := pySplit_head p cs
      simp only [pySplit, hc, heq] at hx
      rcases List.mem_cons.mp hx with h1 | h2
      · subst h1
        exact (List.cons_prefix_cons.mpr ⟨rfl, hp⟩).isInfix
      · have hmem : x ∈ pySplit p cs := by rw [heq]; exact List.mem_cons_of_mem _ h2
        exact List.infix_cons (ih x hmem)

/-- Stripping whitespace yields a contiguous substring of the input. -/
theorem pyStrip_within (l : List Char) : pyStrip l <:+: l := by
  have h1 : pyStrip l <+: l.dropWhile pySpace :=
    List.rdropWhile_prefix pySpace (l.dropWhile pySpace)
  have h2 : l.dropWhile pySpace <:+ l := List.dropWhile_suffix pySpace
  exact h1.isInfix.trans h2.isInfix

/-- `List.getD` returns a member of the list or the default. -/
theorem getD_mem_or_default {α : Type} (l : List α) (i : Nat) (d : α) :
    l.getD i d ∈ l ∨ l.getD i d = d := by
  induction l generalizing i with
  | nil => right; rfl
  | cons a as ih =>
    cases i with
    | zero => left; exact List.mem_cons_self _ _
    | succ j =>
      rcases ih j with hm | hd
      · left; exact List.mem_cons_of_mem _ hm
      · right; exact hd

/-- Any `some` result of the multi-speaker splitter is a contiguous
substring of the input content. -/
theorem extract_speech_some_within (content main_char r : List Char)
    (h : extract_mainchar_speech content main_char = some r) : r <:+: content := by
  have hcp : (splitOnce '：' content).2 <:+: content :=
    (splitOnce_snd_suffix '：' content).isInfix
  simp only [extract_mainchar_speech] at h
  split at h
  · cases h; exact List.infix_refl _
  · split at h
    · split at h
      · split at h
        · rename_i r' heq
          cases h
          split at heq
          · split at heq
            · cases heq
              rcases getD_mem_or_default
                  (pySplit (· = '/') (splitOnce '：' content).2) _ [] with hm | hd
              · exact (pyStrip_within _).trans
                  ((pySplit_mem_within _ _ _ hm).trans hcp)
              · rw [hd]; exact List.nil_infix
            · cases heq
          · cases heq
        · split at h
          · rename_i seg hfind
            cases h
            have hmem := List.mem_of_find?_eq_some hfind
            exact (pyStrip_within _).trans
              ((pySplit_mem_within _ _ _ hmem).trans hcp)
          · cases h
            exact (pyStrip_within _).trans hcp
      · cases h
    · cases h; exact List.infix_refl _

/-- C10: the splitter never fabricates text and never raises: for every
content string and character name, `extract_mainchar_speech` either
returns absent or returns a contiguous substring of the input content
(the whole content, a split piece, or such a piece trimmed of surrounding
whitespace); as a total function it raises no exception. -/
theorem extract_speech_returns_substring (content main_char : List Char) :
    extract_mainchar_speech content main_char = none ∨
      ∃ r, extract_mainchar_speech content main_char = some r ∧ r <:+: content := by
  cases h : extract_mainchar_speech content main_char with
  | none => exact Or.inl rfl
  | some r =>
    exact Or.inr ⟨r, rfl, extract_speech_some_within content main_char r h⟩

/-- C9: noninterference of the `character_names` input: `identify_staff`
returns the same author set for any two values of that parameter — the
structural dialogue-form pattern alone decides staff status. -/
theorem identify_staff_ignores_known_names (l : List Danmaku) (t : Nat)
    (ns1 ns2 : List (List Char)) :
    identify_staff l ns1 t = identify_staff l ns2 t := rfl

end Missevan


